import Mathlib

/-!
Verification of the WarpToolkit logging/timing core against its
natural-language specification.

The C++ sources are shallowly embedded: `double` durations are modelled as
rationals (`ℚ`), `std::string` as `List Char`, unchecked `std::vector`
indexing as `List.get?` (so an out-of-bounds access surfaces as `none`), and
stateful classes as explicit state-passing functions.  Each definition mirrors
one function of the repository; spec-derived reference definitions are marked
as such.
-/

set_option maxHeartbeats 1000000

namespace Warp

/-- C++ `std::string`, modelled as a list of characters. -/
abbrev Str := List Char

/-! ## warp_log: levels and stream routing (src/warp_log/misc.hpp) -/

/-- Logging levels, from `enum class Level` in src/warp_log/misc.hpp:12. -/
inductive Level where
  | Message
  | Info
  | Debug
  | Warn
  | Error
deriving DecidableEq, Repr

/-- The two standard output streams a log line can be routed to. -/
inductive OutStream where
  | stdout
  | stderr
deriving DecidableEq, Repr

/-- `streamFromLevel` from src/warp_log/misc.hpp:56-58 (identical copy at
lines 157-159): `(lvl == Level::Info || lvl == Level::Debug) ? std::cout :
std::cerr`. -/
def streamFromLevel (lvl : Level) : OutStream :=
  if lvl = Level.Info ∨ lvl = Level.Debug then OutStream.stdout else OutStream.stderr

/-! ## warp_log: tag joining (src/warp_log/tag.hpp) -/

/-- `cacheTagVec` from src/warp_log/tag.hpp:31-44: returns `{}` on an empty
vector, otherwise starts from `tags[0]` and appends `delim ++ tags[i]` for
each later element. -/
def cacheTagVec (tags : List Str) (delim : Str) : Str :=
  match tags with
  | [] => []
  | t0 :: rest => rest.foldl (fun result t => result ++ delim ++ t) t0

/-- Reference definition taken from the spec's words for `joinTags`
(spec §4.1): the tag texts in order with the delimiter between consecutive
tags and no trailing delimiter. -/
def joinTagsSpec (delim : Str) : List Str → Str
  | [] => []
  | [t] => t
  | t :: t' :: ts => t ++ delim ++ joinTagsSpec delim (t' :: ts)

/-! ## warp_timer: time units and conversion (src/warp_timer/benchmarking.hpp,
second header, lines 99-126 of the concatenated file) -/

/-- `enum class TimeUnit : uint8_t { MicroSeconds, MilliSeconds, Seconds }`. -/
inductive TimeUnit where
  | MicroSeconds
  | MilliSeconds
  | Seconds
deriving DecidableEq, Repr

/-- `unitID`: the enum's underlying integer value. -/
def unitID : TimeUnit → Fin 3
  | TimeUnit.MicroSeconds => 0
  | TimeUnit.MilliSeconds => 1
  | TimeUnit.Seconds => 2

/-- The 3×3 conversion-factor table `TABLE[from][to]`, with the `double`
literals read as exact rationals. -/
def TABLE : Fin 3 → Fin 3 → ℚ
  | 0, 0 => 1         | 0, 1 => 1 / 1000  | 0, 2 => 1 / 1000000
  | 1, 0 => 1000      | 1, 1 => 1         | 1, 2 => 1 / 1000
  | 2, 0 => 1000000   | 2, 1 => 1000      | 2, 2 => 1

/-- The runtime `convertUnit(val, from_u, to_u)`: identity on equal units,
otherwise a multiplication by the table factor. -/
def convertUnit (val : ℚ) (from_u to_u : TimeUnit) : ℚ :=
  if from_u = to_u then val else val * TABLE (unitID from_u) (unitID to_u)

/-! ## warp_timer: the Timer state machine (src/warp_timer/timer.hpp)

Wall-clock instants are rationals supplied explicitly (`now` parameters);
emitted elapsed-time reports are collected in lists. -/

/-- The `Timer` state: `_start` timestamp, configured `_UNIT`, and the
`_is_running` flag (src/warp_timer/timer.hpp:76-80). -/
structure Timer where
  start : ℚ
  unit : TimeUnit
  is_running : Bool
deriving DecidableEq, Repr

/-- The constructor `Timer(description, unit)` (src/warp_timer/timer.hpp:106-107):
records the current instant and starts running. -/
def timerInit (now : ℚ) (unit : TimeUnit) : Timer :=
  { start := now, unit := unit, is_running := true }

/-- `Timer::_getTimeSinceStart` (src/warp_timer/timer.hpp:82-86): elapsed
milliseconds since `_start`, converted to the configured unit. -/
def getTimeSinceStart (t : Timer) (now : ℚ) : ℚ :=
  convertUnit (now - t.start) TimeUnit.MilliSeconds t.unit

/-- `Timer::_stopAndGetElapsed` (src/warp_timer/timer.hpp:88-93): computes the
elapsed value, clears `_is_running`, and resets `_start` to the current
instant. -/
def stopAndGetElapsed (t : Timer) (now : ℚ) : ℚ × Timer :=
  (getTimeSinceStart t now, { start := now, unit := t.unit, is_running := false })

/-- `Timer::stop` (src/warp_timer/timer.hpp:116-119): unconditionally stops
and emits one elapsed-time report (the `_logElapsed` line, modelled as the
singleton report list). -/
def timerStop (t : Timer) (now : ℚ) : Timer × List ℚ :=
  let r := stopAndGetElapsed t now
  (r.2, [r.1])

/-- `Timer::~Timer` (src/warp_timer/timer.hpp:109): `if (_is_running) stop();`.
Returns the reports the destructor emits. -/
def timerDestruct (t : Timer) (now : ℚ) : List ℚ :=
  if t.is_running then (timerStop t now).2 else []

/-! ## warp_timer: benchmark statistics -/

/-- Model of `std::sort` on the sample vector: sorting ascending. -/
def sortSamples (l : List ℚ) : List ℚ :=
  l.insertionSort (· ≤ ·)

/-- The `MODE` loop body of `Timer::_logBenchmark` in
src/warp_timer/warp_timer.cpp:44-47: per element, `count` is extended or
reset, and on `count > max_count` both `max_count` and `mode` are updated. -/
def modeGo : List ℚ → ℚ → ℚ → Nat → Nat → ℚ
  | [], _, mode, _, _ => mode
  | y :: ys, prev, mode, max_count, count =>
    let c := if y = prev then count + 1 else 1
    if c > max_count then modeGo ys y y c c
    else modeGo ys y mode max_count c

/-- The full `MODE` lambda of src/warp_timer/warp_timer.cpp:39-51:
`mode = results[0]; max_count = 1, count = 1;` then the loop from `i = 1`.
Reading `results[0]` of an empty vector is out of bounds, hence `none`. -/
def cppMode : List ℚ → Option ℚ
  | [] => none
  | x :: xs => some (modeGo xs x x 1 1)

/-- The `MODE` lambda of src/warp_timer/timer.hpp:49-60: identical loop but
the accumulator is declared `double mode;` with no initializer and is only
assigned under `count > max_count`; `none` models the indeterminate value
returned when no assignment ever happens. -/
def hppModeGo : List ℚ → ℚ → Option ℚ → Nat → Nat → Option ℚ
  | [], _, mode, _, _ => mode
  | y :: ys, prev, mode, max_count, count =>
    let c := if y = prev then count + 1 else 1
    if c > max_count then hppModeGo ys y (some y) c c
    else hppModeGo ys y mode max_count c

/-- `timer.hpp`'s mode value on the (sorted) sample list.  For an empty list
the loop bound `i < SIZE` is never met and the uninitialized `mode` is
returned, so the result is `none` there as well. -/
def hppMode : List ℚ → Option ℚ
  | [] => none
  | x :: xs => hppModeGo xs x none 1 1

/-- The `MEDIAN` computation shared by warp_timer.cpp:32-37 and
benchmarking.hpp:24-31: for even size the average of `sorted[SIZE/2 - 1]` and
`sorted[SIZE/2]`, else `sorted[SIZE/2]`; unchecked indexing is `List.get?`.
(For `SIZE = 0` the C++ `size_t` expression `SIZE/2 - 1` wraps to a huge
index; in the model `Nat` subtraction gives 0 — either way the access on the
empty vector is out of bounds and yields `none`.) -/
def medianOfSorted (sorted_ls : List ℚ) : Option ℚ :=
  let SIZE := sorted_ls.length
  if SIZE % 2 = 0 then
    match sorted_ls.get? (SIZE / 2 - 1), sorted_ls.get? (SIZE / 2) with
    | some a, some b => some ((a + b) / 2)
    | _, _ => none
  else sorted_ls.get? (SIZE / 2)

/-- The `MEAN` of warp_timer.cpp:30: `accumulate / SIZE` (in `ℚ`, division by
the zero count returns 0 rather than the IEEE NaN of the C++ build). -/
def meanOfSamples (sorted_ls : List ℚ) : ℚ :=
  sorted_ls.sum / (sorted_ls.length : ℚ)

/-- Outcome of `Timer::_logBenchmark` from src/warp_timer/warp_timer.cpp:19-62.
`oobAccess` marks that an out-of-bounds vector access was evaluated; the
`warned` flag records whether the empty-results warning line was printed. -/
inductive WTBenchOutcome where
  | ok (warned : Bool) (mean median mode : ℚ)
  | oobAccess (warned : Bool)
deriving DecidableEq, Repr

/-- `Timer::_logBenchmark` from src/warp_timer/warp_timer.cpp:19-62: prints
the warning when `results` is empty but does NOT return, then sorts and
computes `MEAN`, `MEDIAN` and `MODE` unconditionally. -/
def wtLogBenchmark (results : List ℚ) : WTBenchOutcome :=
  let warned := results.isEmpty
  let sorted := sortSamples results
  match medianOfSorted sorted, cppMode sorted with
  | some med, some mo => WTBenchOutcome.ok warned (meanOfSamples sorted) med mo
  | _, _ => WTBenchOutcome.oobAccess warned

/-- Outcome of `logBenchmark` from src/warp_timer/benchmarking.hpp:39-58. -/
inductive BHBenchOutcome where
  | warned
  | report (mean median : ℚ)
  | oobAccess
deriving DecidableEq, Repr

/-- `logBenchmark` from src/warp_timer/benchmarking.hpp:39-58: on an empty
vector it warns and returns; otherwise it sorts and reports mean and median
(this variant computes no mode). -/
def bhLogBenchmark (results : List ℚ) : BHBenchOutcome :=
  if results.isEmpty then BHBenchOutcome.warned
  else
    let sorted := sortSamples results
    match medianOfSorted sorted with
    | some med => BHBenchOutcome.report (meanOfSamples sorted) med
    | none => BHBenchOutcome.oobAccess

/-! ## Spec-side reference definitions for the mode contract (spec §4.7) -/

/-- Run-length encoding helper: the pending run `(prev, c)` followed by the
runs of the remaining list. -/
def runsAux : ℚ → Nat → List ℚ → List (ℚ × Nat)
  | prev, c, [] => [(prev, c)]
  | prev, c, y :: ys =>
    if y = prev then runsAux prev (c + 1) ys else (prev, c) :: runsAux y 1 ys

/-- The runs of equal adjacent elements of a list, each with its length. -/
def runsOf : List ℚ → List (ℚ × Nat)
  | [] => []
  | x :: xs => runsAux x 1 xs

/-- The maximum run length. -/
def maxRunLen (rs : List (ℚ × Nat)) : Nat :=
  rs.foldr (fun p m => max p.2 m) 0

/-- Reference definition from the spec's words: the value of the first run
whose length attains the maximum ("the first value to achieve the maximum run
length wins"). -/
def firstMaxVal (rs : List (ℚ × Nat)) : Option ℚ :=
  (rs.find? (fun p => p.2 == maxRunLen rs)).map Prod.fst

/-- One comparison step of the mode scan, lifted to whole runs: keep the
previous best unless the new run is strictly longer (the `count > max_count`
test of the loop). -/
def pickStep (b p : ℚ × Nat) : ℚ × Nat :=
  if p.2 > b.2 then p else b

/-! ## warp_log: TimedLogger timestamp caching (src/unnamed/part_008)

Wall-clock time is a rational number of seconds.  The formatted `[HH:MM:SS]`
tag is modelled by the instant it was formatted at (`some t`); the initial
placeholder/empty cache is `none`.  Each call returns the tag handed to the
logger, the successor state, and whether the tag was recomputed on this call
(the then-branch of the refresh conditional ran). -/

/-- State of the `TimedLogger` variant at src/unnamed/part_008:339-416:
`_cached_time_stamp` and `_last_timestamp_update`
(constructed to `time_point::min()`, passed in as a very small instant). -/
structure TimedLoggerA where
  cached : Option ℚ
  lastUpdate : ℚ
deriving DecidableEq, Repr

/-- `TimedLogger::_getTimestampTag` from src/unnamed/part_008:348-365: if
`now - _last_timestamp_update > TIMESTAMP_CACHE_DURATION` (1 second) the tag
is reformatted and `_cached_time_stamp` replaced — but `_last_timestamp_update`
is never assigned, exactly as in the source. -/
def getTimestampTagA (s : TimedLoggerA) (now : ℚ) : Option ℚ × TimedLoggerA × Bool :=
  if now - s.lastUpdate > 1 then
    (some now, { cached := some now, lastUpdate := s.lastUpdate }, true)
  else
    (s.cached, s, false)

/-- State of the `TimedLogger` variant at src/unnamed/part_008:429-503:
`_cached_timestamp` (initially the empty string, `none` here) and
`_last_update` (initially `time_point::min()`). -/
structure TimedLoggerB where
  cached : Option ℚ
  lastUpdate : ℚ
deriving DecidableEq, Repr

/-- `TimedLogger::_getTimestampTag` from src/unnamed/part_008:439-457:
refreshes when `now - _last_update > TIMESTAMP_CACHE_DURATION` or the cache is
empty, and this variant does set `_last_update = now`. -/
def getTimestampTagB (s : TimedLoggerB) (now : ℚ) : Option ℚ × TimedLoggerB × Bool :=
  if now - s.lastUpdate > 1 ∨ s.cached = none then
    (some now, { cached := some now, lastUpdate := now }, true)
  else
    (s.cached, s, false)

/-! ## warp_log: console sink serialization (src/warp_log/misc.hpp:75-103)

Two threads (named by `Bool`) each perform one `writeToConsole` call.  A call
is a sequence of atomic machine steps: acquire `s_console_mutex`, emit its
chunks with `os.write` (one chunk per write call; misc.hpp writes the whole
composed buffer in a single call, warp_log.cpp:9-28 issues several), release
the lock.  The scheduler interleaves the two threads arbitrarily; acquiring
blocks while the other thread holds the lock; emitting and releasing are not
themselves guarded — mutual exclusion must come from the lock discipline. -/

/-- Global sink state: the mutex owner (if held), each thread's program
counter, and the trace of chunks written to the console so far. -/
structure SinkState where
  lock : Option Bool
  pc : Bool → Nat
  out : List (Bool × Str)

/-- Pointwise program-counter update. -/
def setPc (pc : Bool → Nat) (t : Bool) (v : Nat) : Bool → Nat :=
  fun u => if u = t then v else pc u

/-- The sink before any `write` call: lock free, both threads at the start,
nothing written. -/
def initSink : SinkState :=
  { lock := none, pc := fun _ => 0, out := [] }

/-- One atomic step of the two-thread console-sink system, where `cs t` lists
the chunks thread `t`'s single `writeToConsole` call writes.  Thread `t`'s
program counter means: `0` before `scoped_lock`, `k + 1` about to `os.write`
chunk `k`, `n + 1` about to release, `n + 2` done. -/
inductive WStep (cs : Bool → List Str) : SinkState → SinkState → Prop
  | acquire (t : Bool) (s : SinkState)
      (hpc : s.pc t = 0) (hl : s.lock = none) :
      WStep cs s { lock := some t, pc := setPc s.pc t 1, out := s.out }
  | emit (t : Bool) (s : SinkState) (k : Nat)
      (hpc : s.pc t = k + 1) (hk : k < (cs t).length) :
      WStep cs s { lock := s.lock, pc := setPc s.pc t (k + 2),
                   out := s.out ++ [(t, (cs t).get ⟨k, hk⟩)] }
  | release (t : Bool) (s : SinkState)
      (hpc : s.pc t = (cs t).length + 1) (hl : s.lock = some t) :
      WStep cs s { lock := none, pc := setPc s.pc t ((cs t).length + 2), out := s.out }

/-- The chunks of thread `t`'s message, tagged with the thread that wrote
them: the formatted bytes of one complete `write` call. -/
def msgOf (cs : Bool → List Str) (t : Bool) : List (Bool × Str) :=
  (cs t).map (fun c => (t, c))

/-- The chunks thread `t` has emitted so far, given its program counter. -/
def emittedOf (cs : Bool → List Str) (t : Bool) (pcT : Nat) : List (Bool × Str) :=
  ((cs t).take (pcT - 1)).map (fun c => (t, c))

/-- Thread `t` is inside its critical section: it has performed its acquire
and not yet its release. -/
def inCrit (cs : Bool → List Str) (t : Bool) (s : SinkState) : Prop :=
  1 ≤ s.pc t ∧ s.pc t ≤ (cs t).length + 1

/-- The inductive invariant of the two-writer sink: program counters are in
range, the lock is held exactly by the thread inside its critical section,
and the output so far is one thread's chunk prefix followed by the other's,
where a nonempty second block forces the first thread to be done. -/
def SinkInv (cs : Bool → List Str) (s : SinkState) : Prop :=
  (∀ t, s.pc t ≤ (cs t).length + 2) ∧
  (∀ t, s.lock = some t ↔ inCrit cs t s) ∧
  ∃ a b : Bool, a ≠ b ∧
    s.out = emittedOf cs a (s.pc a) ++ emittedOf cs b (s.pc b) ∧
    (emittedOf cs b (s.pc b) ≠ [] → s.pc a = (cs a).length + 2)

/-- A concrete pair of single-chunk messages used to exhibit an execution of
the sink model. -/
def csW : Bool → List Str :=
  fun t => if t then [['a']] else [['b']]

/-! # Theorems -/

/-! ## Helper lemmas -/

/-- All conversion factors in the table are positive. -/
theorem TABLE_pos (i j : Fin 3) : 0 < TABLE i j := by
  fin_cases i <;> fin_cases j <;> norm_num [TABLE]

/-- Unit conversion preserves non-negativity. -/
theorem convertUnit_nonneg (x : ℚ) (a b : TimeUnit) (hx : 0 ≤ x) :
    0 ≤ convertUnit x a b := by
  unfold convertUnit
  split
  · exact hx
  · exact mul_nonneg hx (le_of_lt (TABLE_pos _ _))

/-- Prepending tag text before the delimiter distributes over the spec join. -/
theorem joinTagsSpec_glue (delim a b : Str) (ts : List Str) :
    joinTagsSpec delim ((a ++ delim ++ b) :: ts) = a ++ delim ++ joinTagsSpec delim (b :: ts) := by
  cases ts with
  | nil => simp [joinTagsSpec]
  | cons t' ts' => simp [joinTagsSpec, List.append_assoc]

/-- The `cacheTagVec` fold agrees with the spec join once seeded with the
first tag. -/
theorem foldl_join (delim : Str) (ts : List Str) :
    ∀ t0 : Str, ts.foldl (fun r t => r ++ delim ++ t) t0 = joinTagsSpec delim (t0 :: ts) := by
  induction ts with
  | nil => intro t0; simp [joinTagsSpec]
  | cons t ts ih =>
    intro t0
    rw [List.foldl_cons, ih (t0 ++ delim ++ t), joinTagsSpec_glue]
    rfl

/-! ## C2: stream routing -/

/-- C2 counterexample: the claim routes the `Message` level to standard
output, but `streamFromLevel` sends every level other than `Info` and `Debug`
— `Message` included — to standard error. -/
theorem streamFromLevel_message_cex :
    streamFromLevel Level.Message = OutStream.stderr ∧
    OutStream.stderr ≠ OutStream.stdout := by
  decide

/-- C2 (amended): a log line goes to standard output exactly for the `Info`
and `Debug` levels; `Message`, `Warn` and `Error` go to standard error. -/
theorem streamFromLevel_routing (lvl : Level) :
    streamFromLevel lvl = OutStream.stdout ↔ (lvl = Level.Info ∨ lvl = Level.Debug) := by
  cases lvl <;> decide

/-! ## C6: unit-conversion round trip -/

/-- C6: converting a duration from unit `a` to unit `b` and back returns the
original value (exactly, in the rational model of `double`); conversion
between equal units is the identity and the conversion table carries 1 on its
diagonal. -/
theorem convertUnit_roundtrip (x : ℚ) (a b : TimeUnit) :
    convertUnit (convertUnit x a b) b a = x ∧
    convertUnit x a a = x ∧
    TABLE (unitID a) (unitID a) = 1 := by
  refine ⟨?_, by simp [convertUnit], ?_⟩
  · cases a <;> cases b <;> simp [convertUnit, unitID, TABLE]
  · cases a <;> simp [unitID, TABLE]

/-! ## C8: tag joining -/

/-- C8: `cacheTagVec` equals the spec's join — tag texts in order, the
delimiter between consecutive tags and no trailing delimiter; the empty list
yields the empty string and a one-element list yields that element
unchanged. -/
theorem cacheTagVec_correct (tags : List Str) (delim : Str) :
    cacheTagVec tags delim = joinTagsSpec delim tags ∧
    cacheTagVec [] delim = [] ∧
    (∀ t : Str, cacheTagVec [t] delim = t) := by
  refine ⟨?_, rfl, fun t => rfl⟩
  cases tags with
  | nil => rfl
  | cons t0 rest => exact foldl_join delim rest t0

/-! ## C7: destructor stop-and-report contract -/

/-- C7: a `Timer` constructed at `t0` and destroyed at `t1` without an
explicit `stop()` emits exactly one elapsed-time report from the destructor;
a `Timer` stopped before destruction emits none there. -/
theorem timer_scope_exit_report (t0 t1 : ℚ) (u : TimeUnit) :
    (timerDestruct (timerInit t0 u) t1).length = 1 ∧
    (∀ t2 : ℚ, timerDestruct ((timerStop (timerInit t0 u) t1).1) t2 = []) := by
  constructor
  · rfl
  · intro t2
    rfl

/-! ## C3: stop while already stopped -/

/-- C3 counterexample: the claim says `stop()` on a stopped `Timer` emits no
elapsed-time report, but `Timer::stop` (timer.hpp:116-119) has no
`_is_running` guard: a second `stop()` call emits a second report. -/
theorem stop_while_stopped_cex :
    ((timerStop (timerStop (timerInit 0 TimeUnit.MilliSeconds) 1).1 2).2).length = 1 := by
  rfl

/-- C3 (amended): `stop()` on an already-stopped `Timer` is non-fatal and
never yields a negative or garbage value — `_stopAndGetElapsed` resets
`_start` at every stop, so the extra report is the non-negative time since
the previous stop — but it is not a no-op: one additional report is
emitted. -/
theorem stop_while_stopped_amended (t0 t1 t2 : ℚ) (u : TimeUnit) (h : t1 ≤ t2) :
    (timerStop (timerStop (timerInit t0 u) t1).1 t2).2 =
      [convertUnit (t2 - t1) TimeUnit.MilliSeconds u] ∧
    0 ≤ convertUnit (t2 - t1) TimeUnit.MilliSeconds u ∧
    ((timerStop (timerInit t0 u) t1).1).is_running = false := by
  refine ⟨rfl, convertUnit_nonneg _ _ _ (by linarith), rfl⟩

/-- Witness for the amended C3 statement at `t0 = 0`, `t1 = 1`, `t2 = 3`. -/
theorem stop_while_stopped_amended_witness :
    (timerStop (timerStop (timerInit 0 TimeUnit.Seconds) 1).1 3).2 =
      [convertUnit (3 - 1) TimeUnit.MilliSeconds TimeUnit.Seconds] ∧
    0 ≤ convertUnit (3 - 1) TimeUnit.MilliSeconds TimeUnit.Seconds ∧
    ((timerStop (timerInit 0 TimeUnit.Seconds) 1).1).is_running = false :=
  stop_while_stopped_amended 0 1 3 TimeUnit.Seconds (by norm_num)

/-! ## C5: timestamp-tag cache -/

/-- C5: the `TimedLogger` at part_008:348-365 never assigns
`_last_timestamp_update`, so the refresh condition stays permanently true: a
call 0.5 s after a refresh — well within the 1 s interval — recomputes the
tag again, contradicting the claim.  The sibling variant at part_008:439-457
(which does set `_last_update = now`) returns the cached tag there. -/
theorem timestamp_cache_never_validates :
    (getTimestampTagA { cached := none, lastUpdate := -1000000 } 10).2.2 = true ∧
    (getTimestampTagA
      (getTimestampTagA { cached := none, lastUpdate := -1000000 } 10).2.1
      (21 / 2)).2.2 = true ∧
    (getTimestampTagB { cached := some 10, lastUpdate := 10 } (21 / 2)).2.2 = false := by
  refine ⟨?_, ?_, ?_⟩
  · norm_num [getTimestampTagA]
  · norm_num [getTimestampTagA]
  · norm_num [getTimestampTagB]
    rw [if_neg (Option.some_ne_none _)]

/-! ## C9: uninitialized mode accumulator -/

/-- C9: in timer.hpp:49-60 the accumulator `double mode;` is only assigned
when some run is longer than 1, so for a single-sample set (or any
all-distinct sample set) the returned mode is the indeterminate initial value
(`none` in the model) — while the warp_timer.cpp sibling, which initializes
`mode = results[0]`, returns an element of the sample set. -/
theorem mode_uninitialized_read :
    hppMode [(5 : ℚ)] = none ∧
    hppMode [(1 : ℚ), 2, 3] = none ∧
    cppMode [(5 : ℚ)] = some 5 := by
  decide

/-! ## C1: benchmark on the empty sample set -/

/-- C1: `Timer::_logBenchmark` in warp_timer.cpp:19-62 prints the
empty-results warning but is missing the `return`: it falls through into the
statistics block and performs an out-of-bounds index into the empty sample
vector (and a division by the zero count).  The logBenchmark of
benchmarking.hpp:39-58 warns and skips as the claim demands. -/
theorem benchmark_empty_falls_through :
    wtLogBenchmark [] = WTBenchOutcome.oobAccess true ∧
    bhLogBenchmark [] = BHBenchOutcome.warned := by
  decide

/-! ## C4: the mode tie-break contract -/

theorem maxRunLen_cons (p : ℚ × Nat) (ps : List (ℚ × Nat)) :
    maxRunLen (p :: ps) = max p.2 (maxRunLen ps) := rfl

/-- The head count of `runsAux prev c xs` is `c` plus the number of leading
copies of `prev` in `xs`, and the tail does not depend on `c`. -/
theorem runsAux_shift (xs : List ℚ) (prev : ℚ) :
    ∃ k rest, ∀ c, runsAux prev c xs = (prev, c + k) :: rest := by
  induction xs generalizing prev with
  | nil => exact ⟨0, [], fun c => rfl⟩
  | cons y ys ih =>
    by_cases hy : y = prev
    · obtain ⟨k, rest, hk⟩ := ih prev
      refine ⟨k + 1, rest, fun c => ?_⟩
      rw [show runsAux prev c (y :: ys) = runsAux prev (c + 1) ys by simp [runsAux, hy],
        hk (c + 1)]
      ring_nf
    · exact ⟨0, runsAux y 1 ys, fun c => by simp [runsAux, hy]⟩

/-- Absorbing a later-coming, not-strictly-longer run into the scan does not
change which run is reported first as maximal. -/
theorem firstMaxVal_cons_cons (b p : ℚ × Nat) (ps : List (ℚ × Nat)) :
    firstMaxVal (b :: p :: ps) = firstMaxVal (pickStep b p :: ps) := by
  unfold pickStep
  by_cases hp : p.2 > b.2
  · rw [if_pos hp]
    have hM : maxRunLen (b :: p :: ps) = maxRunLen (p :: ps) := by
      simp only [maxRunLen_cons]
      omega
    have hble : b.2 < maxRunLen (p :: ps) := by
      have := le_max_left p.2 (maxRunLen ps)
      rw [maxRunLen_cons]
      omega
    unfold firstMaxVal
    rw [hM, List.find?_cons_of_neg]
    simp
    omega
  · rw [if_neg hp]
    have hM : maxRunLen (b :: p :: ps) = maxRunLen (b :: ps) := by
      simp only [maxRunLen_cons]
      omega
    unfold firstMaxVal
    rw [hM]
    by_cases hb : b.2 = maxRunLen (b :: ps)
    · rw [List.find?_cons_of_pos, List.find?_cons_of_pos] <;> simp [hb]
    · have hpne : p.2 ≠ maxRunLen (b :: ps) := by
        have := le_max_left b.2 (maxRunLen ps)
        rw [maxRunLen_cons] at hb ⊢
        omega
      rw [List.find?_cons_of_neg, List.find?_cons_of_neg, List.find?_cons_of_neg] <;>
        simp [hb, hpne]

/-- The strict-greater fold over a run list computes the first run attaining
the maximum length. -/
theorem foldl_pick_firstMaxVal (rest : List (ℚ × Nat)) :
    ∀ b, firstMaxVal (b :: rest) = some (List.foldl pickStep b rest).1 := by
  induction rest with
  | nil =>
    intro b
    simp [firstMaxVal, maxRunLen, List.find?]
  | cons p ps ih =>
    intro b
    rw [List.foldl_cons, ← ih (pickStep b p), firstMaxVal_cons_cons]

/-- The element-at-a-time mode loop equals the run-at-a-time strict-greater
fold, provided the in-progress run is already accounted for in the
accumulator (`c ≤ max_count`), which the loop maintains. -/
theorem modeGo_foldl (xs : List ℚ) :
    ∀ prev mode maxC c, 1 ≤ c → c ≤ maxC →
    modeGo xs prev mode maxC c = (List.foldl pickStep (mode, maxC) (runsAux prev c xs)).1 := by
  induction xs with
  | nil =>
    intro prev mode maxC c h1 h2
    simp [modeGo, runsAux, pickStep, Nat.not_lt.mpr h2]
  | cons y ys ih =>
    intro prev mode maxC c h1 h2
    by_cases hy : y = prev
    · rw [show modeGo (y :: ys) prev mode maxC c =
            (if c + 1 > maxC then modeGo ys y y (c + 1) (c + 1)
             else modeGo ys y mode maxC (c + 1)) by simp [modeGo, hy],
        show runsAux prev c (y :: ys) = runsAux prev (c + 1) ys by simp [runsAux, hy]]
      by_cases hc : c + 1 > maxC
      · rw [if_pos hc, ih y y (c + 1) (c + 1) (by omega) (by omega), hy]
        obtain ⟨k, rest, hk⟩ := runsAux_shift ys prev
        rw [hk (c + 1)]
        rw [List.foldl_cons, List.foldl_cons]
        have e1 : pickStep (prev, c + 1) (prev, c + 1 + k) = (prev, c + 1 + k) := by
          unfold pickStep
          rcases Nat.eq_zero_or_pos k with hk0 | hk0
          · subst hk0
            rw [if_neg (by omega)]
          · rw [if_pos (by omega)]
        have e2 : pickStep (mode, maxC) (prev, c + 1 + k) = (prev, c + 1 + k) := by
          unfold pickStep
          rw [if_pos (by omega)]
        rw [e1, e2]
      · rw [if_neg hc, ih y mode maxC (c + 1) (by omega) (by omega), hy]
    · rw [show modeGo (y :: ys) prev mode maxC c = modeGo ys y mode maxC 1 by
          simp [modeGo, hy]
          intro hgt
          omega,
        show runsAux prev c (y :: ys) = (prev, c) :: runsAux y 1 ys by simp [runsAux, hy],
        List.foldl_cons,
        show pickStep (mode, maxC) (prev, c) = (mode, maxC) by
          unfold pickStep
          rw [if_neg (by omega)]]
      exact ih y mode maxC 1 (by omega) (by omega)

/-- The complete mode lambda equals the spec's first-longest-run value. -/
theorem cppMode_eq_firstMaxVal (l : List ℚ) : cppMode l = firstMaxVal (runsOf l) := by
  cases l with
  | nil => rfl
  | cons x xs =>
    show some (modeGo xs x x 1 1) = firstMaxVal (runsAux x 1 xs)
    rw [modeGo_foldl xs x x 1 1 (le_refl 1) (le_refl 1)]
    obtain ⟨k, rest, hk⟩ := runsAux_shift xs x
    rw [hk 1, foldl_pick_firstMaxVal, List.foldl_cons]
    have e1 : pickStep (x, 1) (x, 1 + k) = (x, 1 + k) := by
      unfold pickStep
      rcases Nat.eq_zero_or_pos k with hk0 | hk0
      · subst hk0
        rw [if_neg (by omega)]
      · rw [if_pos (by omega)]
    rw [e1]

/-- C4: for every sample list the mode computed by the loop of
warp_timer.cpp:39-51 is the value of the first run of equal adjacent elements
attaining the maximum run length (later equal-length runs do not overwrite
it); in particular the mode of `[1,1,2,2,2,3]` is 2 and the mode of
`[1,1,2,2]` is 1. -/
theorem benchmark_mode_contract (l : List ℚ) :
    cppMode l = firstMaxVal (runsOf l) ∧
    cppMode [(1 : ℚ), 1, 2, 2, 2, 3] = some 2 ∧
    cppMode [(1 : ℚ), 1, 2, 2] = some 1 :=
  ⟨cppMode_eq_firstMaxVal l, by decide, by decide⟩


/-! ## C10: console-sink writes never interleave -/

theorem setPc_self (pc : Bool → Nat) (t : Bool) (v : Nat) : setPc pc t v t = v := by
  simp [setPc]

theorem setPc_other (pc : Bool → Nat) (t u : Bool) (v : Nat) (h : u ≠ t) :
    setPc pc t v u = pc u := by
  simp [setPc, h]

theorem bool_third (a b t : Bool) (hab : a ≠ b) (hat : a ≠ t) (hbt : b ≠ t) : False := by
  cases a <;> cases b <;> cases t <;> simp_all

theorem emittedOf_le_one (cs : Bool → List Str) (t : Bool) (n : Nat) (h : n ≤ 1) :
    emittedOf cs t n = [] := by
  have h0 : n - 1 = 0 := by omega
  simp [emittedOf, h0]

theorem emittedOf_succ (cs : Bool → List Str) (t : Bool) (k : Nat) (hk : k < (cs t).length) :
    emittedOf cs t (k + 2) = emittedOf cs t (k + 1) ++ [(t, (cs t).get ⟨k, hk⟩)] := by
  unfold emittedOf
  have h1 : k + 2 - 1 = k + 1 := by omega
  have h2 : k + 1 - 1 = k := by omega
  rw [h1, h2, List.take_succ, List.map_append]
  have h3 : (cs t)[k]? = some ((cs t).get ⟨k, hk⟩) := by
    rw [List.getElem?_eq_getElem hk]
    simp [List.get_eq_getElem]
  rw [h3]
  simp

theorem emittedOf_full (cs : Bool → List Str) (t : Bool) (n : Nat)
    (h : (cs t).length + 1 ≤ n) : emittedOf cs t n = msgOf cs t := by
  unfold emittedOf msgOf
  rw [List.take_of_length_le (by omega)]

theorem sinkInv_init (cs : Bool → List Str) : SinkInv cs initSink := by
  refine ⟨fun t => by simp [initSink], fun t => ?_, true, false, by simp, ?_, ?_⟩
  · simp [initSink, inCrit]
  · simp [initSink, emittedOf_le_one]
  · simp [initSink, emittedOf_le_one]

theorem sinkInv_step {cs : Bool → List Str} {s s' : SinkState}
    (hinv : SinkInv cs s) (hstep : WStep cs s s') : SinkInv cs s' := by
  obtain ⟨hbound, hlock, a, b, hab, hout, hcomp⟩ := hinv
  cases hstep with
  | acquire t _ hpc hl =>
    refine ⟨?_, ?_, ?_⟩
    · intro u
      dsimp only
      by_cases hu : u = t
      · subst hu
        rw [setPc_self]
        omega
      · rw [setPc_other _ _ _ _ hu]
        exact hbound u
    · intro u
      dsimp only
      constructor
      · intro hu
        have hut : t = u := by
          simpa using hu
        subst hut
        unfold inCrit
        dsimp only
        rw [setPc_self]
        omega
      · intro hcrit
        obtain ⟨h1, h2⟩ := hcrit
        dsimp only at h1 h2
        by_cases hu : u = t
        · rw [hu]
        · exfalso
          rw [setPc_other _ _ _ _ hu] at h1 h2
          have hsome : s.lock = some u := (hlock u).mpr ⟨h1, h2⟩
          rw [hl] at hsome
          exact Option.noConfusion hsome
    · refine ⟨a, b, hab, ?_, ?_⟩ <;> dsimp only
      · have ea : emittedOf cs a (setPc s.pc t 1 a) = emittedOf cs a (s.pc a) := by
          by_cases hat : a = t
          · rw [hat, setPc_self, hpc, emittedOf_le_one cs t 1 (by omega),
              emittedOf_le_one cs t 0 (by omega)]
          · rw [setPc_other _ _ _ _ hat]
        have eb : emittedOf cs b (setPc s.pc t 1 b) = emittedOf cs b (s.pc b) := by
          by_cases hbt : b = t
          · rw [hbt, setPc_self, hpc, emittedOf_le_one cs t 1 (by omega),
              emittedOf_le_one cs t 0 (by omega)]
          · rw [setPc_other _ _ _ _ hbt]
        rw [ea, eb]
        exact hout
      · intro hne
        by_cases hat : a = t
        · exfalso
          by_cases hbt : b = t
          · rw [← hat] at hbt
            exact hab hbt.symm
          · rw [setPc_other _ _ _ _ hbt] at hne
            have hdone := hcomp hne
            rw [hat, hpc] at hdone
            omega
        · rw [setPc_other _ _ _ _ hat]
          by_cases hbt : b = t
          · exfalso
            rw [hbt, setPc_self] at hne
            exact hne (emittedOf_le_one _ _ _ (by omega))
          · rw [setPc_other _ _ _ _ hbt] at hne
            exact hcomp hne
  | emit t _ k hpc hk =>
    have hcritT : inCrit cs t s := ⟨by omega, by omega⟩
    have hlt : s.lock = some t := (hlock t).mpr hcritT
    refine ⟨?_, ?_, ?_⟩
    · intro u
      dsimp only
      by_cases hu : u = t
      · subst hu
        rw [setPc_self]
        omega
      · rw [setPc_other _ _ _ _ hu]
        exact hbound u
    · intro u
      dsimp only
      constructor
      · intro hu
        rw [hlt] at hu
        have hut : t = u := by
          simpa using hu
        subst hut
        unfold inCrit
        dsimp only
        rw [setPc_self]
        omega
      · intro hcrit
        obtain ⟨h1, h2⟩ := hcrit
        dsimp only at h1 h2
        by_cases hu : u = t
        · rw [hu, hlt]
        · rw [setPc_other _ _ _ _ hu] at h1 h2
          exact (hlock u).mpr ⟨h1, h2⟩
    · by_cases hat : a = t
      · -- the emitting thread is the second block owner only if b never wrote;
        -- here t = a, so b's block must be empty and a's block extends.
        have hbt : b ≠ t := fun h => hab (hat.trans h.symm)
        have hbempty : emittedOf cs b (s.pc b) = [] := by
          by_contra hne
          have hdone := hcomp hne
          rw [hat, hpc] at hdone
          omega
        rw [hat] at hout hcomp
        refine ⟨a, b, hab, ?_, ?_⟩ <;> dsimp only
        · rw [hat, setPc_self, setPc_other _ _ _ _ hbt, hbempty, hout, hbempty, hpc,
            emittedOf_succ cs t k hk]
          simp
        · intro hne
          rw [setPc_other _ _ _ _ hbt] at hne
          exact absurd hne (by rw [hbempty]; simp)
      · by_cases hbt : b = t
        · by_cases hpa : s.pc a = 0
          · -- a has not started, so its block is empty: list b first.
            rw [hbt] at hout hcomp
            refine ⟨b, a, fun h => hab h.symm, ?_, ?_⟩ <;> dsimp only
            · rw [hbt, setPc_self, setPc_other _ _ _ _ hat, hpa,
                emittedOf_le_one cs a 0 (by omega), hout, hpa,
                emittedOf_le_one cs a 0 (by omega), hpc,
                emittedOf_succ cs t k hk]
              simp
            · intro hne
              rw [setPc_other _ _ _ _ hat, hpa] at hne
              exact absurd hne (by rw [emittedOf_le_one cs a 0 (by omega)]; simp)
          · -- a is not in its critical section (t = b holds the lock) and has
            -- started, so a is done; keep the order (a, b).
            have hadone : s.pc a = (cs a).length + 2 := by
              have hnotcrit : ¬ inCrit cs a s := by
                intro hc
                have hsome := (hlock a).mpr hc
                rw [hlt] at hsome
                have : t = a := by simpa using hsome
                exact hat this.symm
              unfold inCrit at hnotcrit
              push_neg at hnotcrit
              have hb := hbound a
              by_cases h1 : 1 ≤ s.pc a
              · have := hnotcrit h1
                omega
              · omega
            rw [hbt] at hout hcomp
            refine ⟨a, b, hab, ?_, ?_⟩ <;> dsimp only
            · rw [setPc_other _ _ _ _ hat, hbt, setPc_self, hout, hpc,
                emittedOf_succ cs t k hk]
              simp
            · intro _
              rw [setPc_other _ _ _ _ hat]
              exact hadone
        · exact (bool_third a b t hab hat hbt).elim
  | release t _ hpc hl =>
    refine ⟨?_, ?_, ?_⟩
    · intro u
      dsimp only
      by_cases hu : u = t
      · subst hu
        rw [setPc_self]
      · rw [setPc_other _ _ _ _ hu]
        exact hbound u
    · intro u
      dsimp only
      constructor
      · intro hu
        exact Option.noConfusion hu
      · intro hcrit
        exfalso
        obtain ⟨h1, h2⟩ := hcrit
        dsimp only at h1 h2
        by_cases hu : u = t
        · rw [hu, setPc_self] at h1 h2
          omega
        · rw [setPc_other _ _ _ _ hu] at h1 h2
          have hsome := (hlock u).mpr ⟨h1, h2⟩
          rw [hl] at hsome
          have : t = u := by simpa using hsome
          exact hu this.symm
    · have et : emittedOf cs t ((cs t).length + 2) = emittedOf cs t (s.pc t) := by
        rw [hpc, emittedOf_full _ _ _ (by omega), emittedOf_full _ _ _ (by omega)]
      refine ⟨a, b, hab, ?_, ?_⟩ <;> dsimp only
      · have ea : emittedOf cs a (setPc s.pc t ((cs t).length + 2) a) =
            emittedOf cs a (s.pc a) := by
          by_cases hat : a = t
          · rw [hat, setPc_self]
            exact et
          · rw [setPc_other _ _ _ _ hat]
        have eb : emittedOf cs b (setPc s.pc t ((cs t).length + 2) b) =
            emittedOf cs b (s.pc b) := by
          by_cases hbt : b = t
          · rw [hbt, setPc_self]
            exact et
          · rw [setPc_other _ _ _ _ hbt]
        rw [ea, eb]
        exact hout
      · intro hne
        by_cases hat : a = t
        · rw [hat, setPc_self]
        · rw [setPc_other _ _ _ _ hat]
          by_cases hbt : b = t
          · rw [hbt, setPc_self, et] at hne
            rw [hbt] at hcomp
            exact hcomp hne
          · rw [setPc_other _ _ _ _ hbt] at hne
            exact hcomp hne

theorem sinkInv_reach {cs : Bool → List Str} {s : SinkState}
    (h : Relation.ReflTransGen (WStep cs) initSink s) : SinkInv cs s := by
  induction h with
  | refl => exact sinkInv_init cs
  | tail _ hstep ih => exact sinkInv_step ih hstep

/-- C10: in every interleaved execution in which two threads each complete
one `writeToConsole` call through the shared `s_console_mutex`, the final
console output is one call's bytes in full followed by the other's — the two
formatted messages never interleave. -/
theorem write_no_interleave (cs : Bool → List Str) (s : SinkState)
    (h : Relation.ReflTransGen (WStep cs) initSink s)
    (hT : s.pc true = (cs true).length + 2)
    (hF : s.pc false = (cs false).length + 2) :
    s.out = msgOf cs true ++ msgOf cs false ∨
    s.out = msgOf cs false ++ msgOf cs true := by
  obtain ⟨_, _, a, b, hab, hout, _⟩ := sinkInv_reach h
  have ha : emittedOf cs a (s.pc a) = msgOf cs a := by
    cases a
    · rw [hF]
      exact emittedOf_full _ _ _ (by omega)
    · rw [hT]
      exact emittedOf_full _ _ _ (by omega)
  have hb : emittedOf cs b (s.pc b) = msgOf cs b := by
    cases b
    · rw [hF]
      exact emittedOf_full _ _ _ (by omega)
    · rw [hT]
      exact emittedOf_full _ _ _ (by omega)
  rw [ha, hb] at hout
  cases a with
  | true =>
    cases b with
    | true => exact absurd rfl hab
    | false => exact Or.inl hout
  | false =>
    cases b with
    | true => exact Or.inr hout
    | false => exact absurd rfl hab

/-- Witness: an explicit six-step schedule in which each thread completes one
single-chunk write call, with every hypothesis of the no-interleave theorem
discharged concretely. -/
theorem write_no_interleave_witness :
    [(true, ['a']), (false, ['b'])] = msgOf csW true ++ msgOf csW false ∨
    [(true, ['a']), (false, ['b'])] = msgOf csW false ++ msgOf csW true := by
  have hk1 : (0 : Nat) < (csW true).length := by decide
  have hk2 : (0 : Nat) < (csW false).length := by decide
  have st1 := @WStep.acquire csW true initSink rfl rfl
  have st2 := @WStep.emit csW true
    { lock := some true, pc := setPc initSink.pc true 1, out := initSink.out } 0 rfl hk1
  have st3 := @WStep.release csW true
    { lock := some true, pc := setPc (setPc initSink.pc true 1) true 2,
      out := initSink.out ++ [(true, (csW true).get ⟨0, hk1⟩)] } rfl rfl
  have st4 := @WStep.acquire csW false
    { lock := none,
      pc := setPc (setPc (setPc initSink.pc true 1) true 2) true ((csW true).length + 2),
      out := initSink.out ++ [(true, (csW true).get ⟨0, hk1⟩)] } rfl rfl
  have st5 := @WStep.emit csW false
    { lock := some false,
      pc := setPc
        (setPc (setPc (setPc initSink.pc true 1) true 2) true ((csW true).length + 2))
        false 1,
      out := initSink.out ++ [(true, (csW true).get ⟨0, hk1⟩)] } 0 rfl hk2
  have st6 := @WStep.release csW false
    { lock := some false,
      pc := setPc
        (setPc
          (setPc (setPc (setPc initSink.pc true 1) true 2) true ((csW true).length + 2))
          false 1)
        false 2,
      out := initSink.out ++ [(true, (csW true).get ⟨0, hk1⟩)] ++
        [(false, (csW false).get ⟨0, hk2⟩)] } rfl rfl
  exact write_no_interleave csW _
    ((((((Relation.ReflTransGen.refl.tail st1).tail st2).tail st3).tail st4).tail
      st5).tail st6) rfl rfl

end Warp
